import Mathlib

/-!
# The Git facade of juCi++ (`src/git.cc`)

A shallow embedding of the functions of `src/git.cc` and the properties checked on them.

Conventions of the embedding.

* The libgit2 backend is an external collaborator.  Every backend call is a parameter of the
  embedded function: what the backend delivers (hunks, lines, status entries), the code it
  returns and the content of its last-error slot.
* A C++ exception is an `Except.error`; every `throw` of the file throws `std::runtime_error`.
* `int` fields of `git_diff_hunk` are `Int`.  Signed overflow is undefined in C++ and libgit2
  refuses to diff more than 1 GiB of text, so the line arithmetic stays far inside `int`.
* `size_t` arithmetic (the reference count of the registry) is `Nat` modulo `2 ^ 64`.
* Mutexes serialise the bodies they guard; each embedded function is the body executed
  while the lock is held.
-/

namespace Git

/-! ## Errors -/

/-- The one exception type thrown in `git.cc`: `std::runtime_error` with its message. -/
inductive Exception where
  | runtime_error (what : String)
deriving DecidableEq, Repr

/-- The class `Git::Error`: the code returned by the last backend call. -/
structure Error where
  code : Int := 0
deriving DecidableEq, Repr

/-- Modelled from the spec: `Git::Error::operator bool`, declared in `git.h` which is not part
of the sources.  Section 4.1 of the specification: "Every fallible backend call in this system
checks a returned status code; nonzero code triggers construction of a descriptive failure". -/
def Error.toBool (error : Error) : Bool :=
  decide (error.code ≠ 0)

/-- `Git::Error::message`: reads the last-error slot of the backend (`giterr_last()`); the
empty string when the slot is null, the stored message otherwise. -/
def Error.message (last_error : Option String) : String :=
  match last_error with
  | none => ""
  | some m => m

/-! ## Diff -/

/-- The fields of libgit2 `git_diff_hunk` read by the callbacks; `header` is the text
`std::string(hunk->header, hunk->header_len)`. -/
structure git_diff_hunk where
  old_start : Int
  old_lines : Int
  new_start : Int
  new_lines : Int
  header : String
deriving DecidableEq, Repr

/-- The fields of libgit2 `git_diff_line` read by `line_cb`; `content` is the text
`std::string(line->content, line->content_len)`. -/
structure git_diff_line where
  origin : Char
  content : String
deriving DecidableEq, Repr

/-- The fields of libgit2 `git_diff_options` this file touches. -/
structure git_diff_options where
  version : Nat
  context_lines : Nat
  interhunk_lines : Nat
deriving DecidableEq, Repr

/-- The libgit2 call `git_diff_init_options`: the library defaults (three context lines). -/
def git_diff_init_options (version : Nat) : git_diff_options :=
  { version := version, context_lines := 3, interhunk_lines := 0 }

/-- The constant `GIT_DIFF_OPTIONS_VERSION` of libgit2. -/
def GIT_DIFF_OPTIONS_VERSION : Nat := 1

/-- What `git_revparse_single` hands back: its code, the blob content it stored through the
out pointer (nothing on failure) and the last-error slot afterwards. -/
structure RevparseResult where
  code : Int
  blob : Option String
  last_error : Option String
deriving DecidableEq, Repr

/-- The class `Git::Repository::Diff`: the borrowed repository pointer, the blob resolved
from `HEAD:<path>` and the diff options. -/
structure Diff where
  repository : Nat
  blob : Option String
  options : git_diff_options
deriving DecidableEq, Repr

/-- The constructor `Git::Repository::Diff::Diff` (git.cc 17-30), named `new` here.  `path` is
`path.generic_string()`, `git_revparse_single` is the backend call on the revision spec. -/
def Diff.new (path : String) (repository : Nat)
    (git_revparse_single : Nat → String → RevparseResult) : Except Exception Diff :=
  let spec := "HEAD:" ++ path
  let r := git_revparse_single repository spec
  let error : Error := { code := r.code }
  if error.toBool then
    Except.error (Exception.runtime_error (Error.message r.last_error))
  else
    let options := git_diff_init_options GIT_DIFF_OPTIONS_VERSION
    Except.ok { repository := repository, blob := r.blob,
                options := { options with context_lines := 0 } }

/-- Modelled from the spec: the struct `Git::Repository::Diff::Lines` of `git.h` (not part of
the sources).  Section 6: `{added: [(start,end)], removed: [start], modified: [(start,end)]}`. -/
structure Lines where
  added : List (Int × Int) := []
  removed : List Int := []
  modified : List (Int × Int) := []
deriving DecidableEq, Repr

/-- The callback `Git::Repository::Diff::hunk_cb` (git.cc 33-45): the updated payload and the
returned code. -/
def hunk_cb (hunk : git_diff_hunk) (lines : Lines) : Lines × Int :=
  let start := hunk.new_start - 1
  let end_ := hunk.new_start + hunk.new_lines - 1
  if hunk.old_lines = 0 ∧ hunk.new_lines > 0 then
    ({ lines with added := lines.added ++ [(start, end_)] }, 0)
  else if hunk.new_lines = 0 ∧ hunk.old_lines > 0 then
    ({ lines with removed := lines.removed ++ [start] }, 0)
  else
    ({ lines with modified := lines.modified ++ [(start, end_)] }, 0)

/-- One run of `git_diff_blob_to_buffer`: the hunks in the order the backend reports them, each
with its lines, the code the call returns when no callback aborts it, and the last-error slot
afterwards. -/
structure DiffRun where
  hunks : List (git_diff_hunk × List git_diff_line)
  code : Int
  last_error : Option String
deriving DecidableEq, Repr

/-- The callback protocol of libgit2: the callback is invoked on each item in order, and a
nonzero return stops the walk, that code becoming the result of the call. -/
def foreach_cb {α σ : Type} (cb : α → σ → σ × Int) : List α → σ → σ × Int
  | [], s => (s, 0)
  | x :: xs, s =>
    let r := cb x s
    if r.2 ≠ 0 then r else foreach_cb cb xs r.1

/-- The hunks a run delivers to a hunk callback. -/
def DiffRun.hunk_entries (run : DiffRun) : List git_diff_hunk :=
  run.hunks.map Prod.fst

/-- The (hunk, line) pairs a run delivers to a line callback. -/
def DiffRun.line_entries (run : DiffRun) : List (git_diff_hunk × git_diff_line) :=
  run.hunks.flatMap (fun hl => hl.2.map (fun l => (hl.1, l)))

/-- The method `Git::Repository::Diff::get_lines` (git.cc 47-59). -/
def Diff.get_lines (self : Diff) (buffer : String)
    (git_diff_blob_to_buffer : Option String → String → git_diff_options → DiffRun) :
    Except Exception Lines :=
  let run := git_diff_blob_to_buffer self.blob buffer self.options
  let r := foreach_cb hunk_cb run.hunk_entries ({} : Lines)
  let error : Error := { code := if r.2 ≠ 0 then r.2 else run.code }
  if error.toBool then
    Except.error (Exception.runtime_error (Error.message run.last_error))
  else
    Except.ok r.1

/-- The callback `Git::Repository::Diff::line_cb` (git.cc 61-72); the payload is the pair
(accumulated text, requested line). -/
def line_cb (hunk : git_diff_hunk) (line : git_diff_line) (details : String × Int) :
    (String × Int) × Int :=
  let line_nr := details.2
  let start := hunk.new_start - 1
  let end_ := hunk.new_start + hunk.new_lines - 1
  if line_nr = start ∨ (line_nr ≥ start ∧ line_nr < end_) then
    let first := if details.1 = "" then details.1 ++ hunk.header else details.1
    ((first ++ (String.singleton line.origin ++ line.content), details.2), 0)
  else
    (details, 0)

/-- The method `Git::Repository::Diff::get_details` (git.cc 74-87). -/
def Diff.get_details (self : Diff) (buffer : String) (line_nr : Int)
    (git_diff_blob_to_buffer : Option String → String → git_diff_options → DiffRun) :
    Except Exception String :=
  let details : String × Int := ("", line_nr)
  let run := git_diff_blob_to_buffer self.blob buffer self.options
  let r := foreach_cb (fun (e : git_diff_hunk × git_diff_line) => line_cb e.1 e.2)
    run.line_entries details
  let error : Error := { code := if r.2 ≠ 0 then r.2 else run.code }
  if error.toBool then
    Except.error (Exception.runtime_error (Error.message run.last_error))
  else
    Except.ok r.1.1

/-! ## Status -/

/-- Modelled from the spec: the enum `Git::Repository::STATUS` of `git.h` (not part of the
sources); its members are the cases of `status_string` (git.cc 130-143). -/
inductive STATUS where
  | CURRENT | NEW | MODIFIED | DELETED | RENAMED | TYPECHANGE | UNREADABLE | IGNORED
  | CONFLICTED
deriving DecidableEq, Repr

/-- The libgit2 the file is compiled against: the macro `LIBGIT2_SOVERSION` and the members of
the enum `git_status_t` the file names.  They come from the library headers and are taken as
parameters. -/
structure Libgit2 where
  LIBGIT2_SOVERSION : Nat
  GIT_STATUS_INDEX_NEW : Nat
  GIT_STATUS_INDEX_MODIFIED : Nat
  GIT_STATUS_INDEX_DELETED : Nat
  GIT_STATUS_INDEX_RENAMED : Nat
  GIT_STATUS_INDEX_TYPECHANGE : Nat
  GIT_STATUS_WT_NEW : Nat
  GIT_STATUS_WT_MODIFIED : Nat
  GIT_STATUS_WT_DELETED : Nat
  GIT_STATUS_WT_TYPECHANGE : Nat
  GIT_STATUS_WT_RENAMED : Nat
  GIT_STATUS_WT_UNREADABLE : Nat
  GIT_STATUS_IGNORED : Nat
  GIT_STATUS_CONFLICTED : Nat
deriving DecidableEq, Repr

/-- The values of `git_status_t` in the libgit2 headers (`include/git2/status.h`), with a
library version that has all of them. -/
def libgit2_headers : Libgit2 :=
  { LIBGIT2_SOVERSION := 26
    GIT_STATUS_INDEX_NEW := 1 <<< 0
    GIT_STATUS_INDEX_MODIFIED := 1 <<< 1
    GIT_STATUS_INDEX_DELETED := 1 <<< 2
    GIT_STATUS_INDEX_RENAMED := 1 <<< 3
    GIT_STATUS_INDEX_TYPECHANGE := 1 <<< 4
    GIT_STATUS_WT_NEW := 1 <<< 7
    GIT_STATUS_WT_MODIFIED := 1 <<< 8
    GIT_STATUS_WT_DELETED := 1 <<< 9
    GIT_STATUS_WT_TYPECHANGE := 1 <<< 10
    GIT_STATUS_WT_RENAMED := 1 <<< 11
    GIT_STATUS_WT_UNREADABLE := 1 <<< 12
    GIT_STATUS_IGNORED := 1 <<< 14
    GIT_STATUS_CONFLICTED := 1 <<< 15 }

/-- A `boost::filesystem::path`, as the sequence of its elements: `a/b/c.txt` is
`["a", "b", "c.txt"]`.  The string `generic_string()` spells is identified with the path. -/
abbrev Path := List String

/-- The member `boost::filesystem::path::parent_path`: the path without its last element. -/
def Path.parent_path (p : Path) : Path := p.dropLast

/-- The member `boost::filesystem::path::empty`. -/
def Path.empty (p : Path) : Bool := p.isEmpty

/-- The operator `/` of `boost::filesystem::path`: the elements of `q` after those of `p`. -/
def Path.join (p q : Path) : Path := p ++ q

/-- The member `std::unordered_set::emplace`: the element is added unless it is there. -/
def emplace (x : Path) (s : List Path) : List Path :=
  if x ∈ s then s else x :: s

/-- Modelled from the spec: the class `Git::Repository::Status` of `git.h` (not part of the
sources).  Section 3: "two sets of absolute file paths", `added` and `modified`. -/
structure Status where
  added : List Path := []
  modified : List Path := []
deriving DecidableEq, Repr

/-- The `STATUS status; if ... else ...` chain of `Git::Repository::status_callback`
(git.cc 148-170), the branches under `#if LIBGIT2_SOVERSION>=23` included when the version
says so. -/
def status_callback_status (lib : Libgit2) (status_flags : Nat) : STATUS :=
  if (status_flags &&& (lib.GIT_STATUS_INDEX_NEW ||| lib.GIT_STATUS_WT_NEW)) > 0 then
    STATUS.NEW
  else if (status_flags &&& (lib.GIT_STATUS_INDEX_MODIFIED ||| lib.GIT_STATUS_WT_MODIFIED)) > 0 then
    STATUS.MODIFIED
  else if (status_flags &&& (lib.GIT_STATUS_INDEX_DELETED ||| lib.GIT_STATUS_WT_DELETED)) > 0 then
    STATUS.DELETED
  else if (status_flags &&& (lib.GIT_STATUS_INDEX_RENAMED ||| lib.GIT_STATUS_WT_RENAMED)) > 0 then
    STATUS.RENAMED
  else if (status_flags &&& (lib.GIT_STATUS_INDEX_TYPECHANGE ||| lib.GIT_STATUS_WT_TYPECHANGE)) > 0 then
    STATUS.TYPECHANGE
  else if lib.LIBGIT2_SOVERSION ≥ 23 ∧ (status_flags &&& lib.GIT_STATUS_WT_UNREADABLE) > 0 then
    STATUS.UNREADABLE
  else if (status_flags &&& lib.GIT_STATUS_IGNORED) > 0 then
    STATUS.IGNORED
  else if lib.LIBGIT2_SOVERSION ≥ 23 ∧ (status_flags &&& lib.GIT_STATUS_CONFLICTED) > 0 then
    STATUS.CONFLICTED
  else
    STATUS.CURRENT

/-- The function `Git::Repository::status_callback` (git.cc 145-176): `data` is the user
callback (an empty `std::function` is `none`) acting on the state `s` it captured; the result
is that state afterwards and the returned code. -/
def status_callback {σ : Type} (lib : Libgit2) (path : Path) (status_flags : Nat)
    (data : Option (Path → STATUS → σ → σ)) (s : σ) : σ × Int :=
  let status := status_callback_status lib status_flags
  match data with
  | some callback => (callback path status s, 0)
  | none => (s, 0)

/-- The members of `Git::Repository` the status cache uses: `work_path`, `has_saved_status`
and `saved_status`. -/
structure Repository where
  work_path : Path
  has_saved_status : Bool := false
  saved_status : Status := {}
deriving DecidableEq, Repr

/-- The `do ... while(!rel_path.empty())` loop of the callback lambda of `get_status`
(git.cc 194-200). -/
def get_status_loop (work_path : Path) (status_enum : STATUS) (rel_path : Path)
    (status : Status) : Status :=
  let status1 : Status :=
    if status_enum = STATUS.MODIFIED then
      { status with modified := emplace (work_path.join rel_path) status.modified }
    else status
  let status2 : Status :=
    if status_enum = STATUS.NEW then
      { status1 with added := emplace (work_path.join rel_path) status1.added }
    else status1
  if _h : rel_path.parent_path.empty = false then
    get_status_loop work_path status_enum rel_path.parent_path status2
  else
    status2
termination_by rel_path.length
decreasing_by
  have hne : rel_path ≠ [] := by
    intro e
    simp [e, Path.parent_path, Path.empty] at _h
  simpa [Path.parent_path] using List.length_pos.mpr hne

/-- The callback lambda of `Git::Repository::get_status` (git.cc 188-201), acting on the
captured `status`. -/
def get_status_callback (work_path : Path) (path_cstr : Path) (status_enum : STATUS)
    (status : Status) : Status :=
  get_status_loop work_path status_enum path_cstr status

/-- One run of `git_status_foreach`: the (path, flags) entries in the order the backend reports
them, the code the call returns when no callback aborts it, and the last-error slot
afterwards. -/
structure StatusWalk where
  entries : List (Path × Nat)
  code : Int
  last_error : Option String
deriving DecidableEq, Repr

/-- A stub backend with a call counter: `status_foreach_calls` counts the calls of
`git_status_foreach` made so far and `status_foreach k` is what call number `k` delivers. -/
structure Backend where
  status_foreach_calls : Nat
  status_foreach : Nat → StatusWalk

/-- The method `Git::Repository::get_status` (git.cc 178-212): the value returned or the
exception thrown, the repository members afterwards and the backend afterwards. -/
def Repository.get_status (lib : Libgit2) (self : Repository) (backend : Backend) :
    Except Exception Status × Repository × Backend :=
  if self.has_saved_status then
    (Except.ok self.saved_status, self, backend)
  else
    let status : Status := {}
    let callback : Path → STATUS → Status → Status := get_status_callback self.work_path
    let walk := backend.status_foreach backend.status_foreach_calls
    let backend1 : Backend :=
      { backend with status_foreach_calls := backend.status_foreach_calls + 1 }
    let r := foreach_cb
      (fun (e : Path × Nat) => status_callback lib e.1 e.2 (some callback)) walk.entries status
    let error : Error := { code := if r.2 ≠ 0 then r.2 else walk.code }
    if error.toBool then
      (Except.error (Exception.runtime_error (Error.message walk.last_error)), self, backend1)
    else
      (Except.ok r.1, { self with saved_status := r.1, has_saved_status := true }, backend1)

/-- The method `Git::Repository::get_diff` (git.cc 247-249); `repository` is the pointer
`repository.get()`. -/
def Repository.get_diff (repository : Nat) (path : String)
    (git_revparse_single : Nat → String → RevparseResult) : Except Exception Diff :=
  Diff.new path repository git_revparse_single

/-! ## The registry of repositories -/

/-- The largest `size_t`, which is also `static_cast<size_t>(-1)`. -/
def SIZE_MAX : Nat := 2 ^ 64 - 1

/-- A `std::shared_ptr<Git::Repository>` returned by `get_repository`: the pointer it wraps and
the `root_path` its deleter captured. -/
structure SharedPtr where
  ptr : Nat
  root_path : String
deriving DecidableEq, Repr

/-- The static `Git::repositories`: for each root path the pair (pointer to the `Repository`
object, count).  `constructed` counts the `Repository` objects constructed so far; the next
object gets that number as its pointer, so each construction yields a pointer not seen
before. -/
structure Registry where
  repositories : String → Option (Nat × Nat)
  constructed : Nat

/-- The registry at program start: an empty table. -/
def Registry.empty : Registry :=
  { repositories := fun _ => none, constructed := 0 }

/-- The member `std::unordered_map::emplace` and the assignment through an iterator: the
entry of `key` becomes `value`. -/
def table_set (t : String → Option (Nat × Nat)) (key : String) (value : Nat × Nat) :
    String → Option (Nat × Nat) :=
  fun k => if k = key then some value else t k

/-- The member `std::unordered_map::erase`. -/
def table_erase (t : String → Option (Nat × Nat)) (key : String) :
    String → Option (Nat × Nat) :=
  fun k => if k = key then none else t k

/-- The function `Git::get_repository` (git.cc 263-284).  `get_root_path` is the outcome of
`Repository::get_root_path(path)` and `Repository_new root` the outcome of the constructor
`new Repository(root)`: both may throw.  The result is the value returned or the exception
thrown, and the registry afterwards. -/
def get_repository (reg : Registry) (get_root_path : Except Exception String)
    (Repository_new : String → Except Exception Unit) :
    Except Exception SharedPtr × Registry :=
  match get_root_path with
  | Except.error e => (Except.error e, reg)
  | Except.ok root_path =>
    match reg.repositories root_path with
    | some (repository_ptr, count) =>
      let reg1 : Registry :=
        { reg with
          repositories :=
            table_set reg.repositories root_path (repository_ptr, (count + 1) % 2 ^ 64) }
      (Except.ok { ptr := repository_ptr, root_path := root_path }, reg1)
    | none =>
      match Repository_new root_path with
      | Except.error e => (Except.error e, reg)
      | Except.ok _ =>
        let repository_ptr := reg.constructed
        let reg1 : Registry :=
          { repositories := table_set reg.repositories root_path (repository_ptr, 1)
            constructed := reg.constructed + 1 }
        (Except.ok { ptr := repository_ptr, root_path := root_path }, reg1)

/-- The deleter of the `shared_ptr` returned by `get_repository` (git.cc 277-283).  `none` when
`repositories.find` returns `end()`: the code dereferences the iterator without a check, which
is undefined. -/
def SharedPtr.deleter (self : SharedPtr) (reg : Registry) : Option Registry :=
  match reg.repositories self.root_path with
  | none => none
  | some (repository_ptr, count) =>
    let count1 := (count + SIZE_MAX) % 2 ^ 64
    if count1 = 0 then
      some { reg with repositories := table_erase reg.repositories self.root_path }
    else
      some { reg with
             repositories := table_set reg.repositories self.root_path (repository_ptr, count1) }

/-- The registry together with the references handed out and not yet released. -/
structure World where
  registry : Registry
  live : List SharedPtr

/-- The program start: an empty table and no reference handed out. -/
def World.init : World :=
  { registry := Registry.empty, live := [] }

/-- The number of outstanding references whose deleter captured `root`. -/
def World.outstanding (w : World) (root : String) : Nat :=
  (w.live.filter (fun sp => sp.root_path = root)).length

/-- One step of the registry: a call of `get_repository` that returns a reference, a call that
throws, or the deleter of an outstanding reference running.  A process cannot hold `2 ^ 64`
live `shared_ptr` control blocks in a 64-bit address space, which is the bound on `acquire`. -/
inductive Step : World → World → Prop where
  | acquire (w : World) (root : Except Exception String)
      (Repository_new : String → Except Exception Unit) (sp : SharedPtr) (reg : Registry) :
      w.live.length + 1 < 2 ^ 64 →
      get_repository w.registry root Repository_new = (Except.ok sp, reg) →
      Step w { registry := reg, live := sp :: w.live }
  | acquire_throws (w : World) (root : Except Exception String)
      (Repository_new : String → Except Exception Unit) (e : Exception) (reg : Registry) :
      get_repository w.registry root Repository_new = (Except.error e, reg) →
      Step w { registry := reg, live := w.live }
  | release (w : World) (sp : SharedPtr) (reg : Registry) :
      sp ∈ w.live →
      sp.deleter w.registry = some reg →
      Step w { registry := reg, live := w.live.erase sp }

/-- The worlds some sequence of steps reaches from the program start. -/
inductive Reachable : World → Prop where
  | init : Reachable World.init
  | step (w w1 : World) : Reachable w → Step w w1 → Reachable w1

/-! ## Paths returned by the backend -/

/-- The two separator characters `Git::path` looks for: `/` and the backslash. -/
def is_separator (c : Char) : Bool :=
  c = Char.ofNat 47 || c = Char.ofNat 92

/-- The function `Git::path` (git.cc 286-293).  `cpath` is the C string at the pointer (the
characters before its terminating NUL, so `strlen(cpath)` is its length) and `cpath_length` the
second argument, `SIZE_MAX` standing for "not given".  Reading `cpath[cpath_length-1]` and
building `std::string(cpath, n)` stay inside the string when `cpath_length` is at most its
length. -/
def path (cpath : List Char) (cpath_length : Nat) : List Char :=
  let cpath_length := if cpath_length = SIZE_MAX then cpath.length else cpath_length
  if cpath_length > 0 ∧
      (cpath.getD (cpath_length - 1) (Char.ofNat 0) = Char.ofNat 47 ∨
        cpath.getD (cpath_length - 1) (Char.ofNat 0) = Char.ofNat 92) then
    cpath.take (cpath_length - 1)
  else
    cpath.take cpath_length

/-! ## Reference definitions, written from the specification -/

/-- The bounds the specification gives the range of a hunk: `[newStart-1, newStart+newLines-1)`. -/
def spec_range (h : git_diff_hunk) : Int × Int :=
  (h.new_start - 1, h.new_start + h.new_lines - 1)

/-- Section 4.2: the hunk "deletes zero old lines and adds new lines". -/
def spec_is_added (h : git_diff_hunk) : Prop :=
  h.old_lines = 0 ∧ h.new_lines > 0

/-- Section 4.2: the hunk "adds zero new lines and removes old lines". -/
def spec_is_removed (h : git_diff_hunk) : Prop :=
  h.new_lines = 0 ∧ h.old_lines > 0

instance (h : git_diff_hunk) : Decidable (spec_is_added h) := by
  unfold spec_is_added; infer_instance

instance (h : git_diff_hunk) : Decidable (spec_is_removed h) := by
  unfold spec_is_removed; infer_instance

/-- The reference partition of a list of hunks: the added ranges, the removed points and the
modified ranges, each in the order of the list. -/
def spec_lines (hunks : List git_diff_hunk) : Lines :=
  { added := (hunks.filter (fun h => decide (spec_is_added h))).map spec_range
    removed := (hunks.filter (fun h => decide (spec_is_removed h))).map
      (fun h => h.new_start - 1)
    modified := (hunks.filter
      (fun h => decide (¬ spec_is_added h ∧ ¬ spec_is_removed h))).map spec_range }

/-- The range test in the words of the specification: the new-range of the hunk contains
`line_nr`, "inclusive of the hunk's start line and strictly less than its end". -/
def spec_in_range (h : git_diff_hunk) (line_nr : Int) : Prop :=
  h.new_start - 1 ≤ line_nr ∧ line_nr < h.new_start + h.new_lines - 1

instance (h : git_diff_hunk) (line_nr : Int) : Decidable (spec_in_range h line_nr) := by
  unfold spec_in_range; infer_instance

/-- The range test with the start line always included: `line_nr` is the start line of the
hunk, or the new-range of the hunk contains it. -/
def touches (h : git_diff_hunk) (line_nr : Int) : Prop :=
  line_nr = h.new_start - 1 ∨ spec_in_range h line_nr

instance (h : git_diff_hunk) (line_nr : Int) : Decidable (touches h line_nr) := by
  unfold touches; infer_instance

/-- The text of the line entries: origin marker and content of each, in order. -/
def spec_lines_text : List (git_diff_hunk × git_diff_line) → String
  | [] => ""
  | e :: es => (String.singleton e.2.origin ++ e.2.content) ++ spec_lines_text es

/-- The text the specification describes for the contributing entries: nothing when there is
none, otherwise the header of the first one's hunk followed by the text of all of them. -/
def spec_details : List (git_diff_hunk × git_diff_line) → String
  | [] => ""
  | e :: es => e.1.header ++ spec_lines_text (e :: es)

/-- A run of the backend used in the examples: one hunk removing old line 3, reported after
new line 2, with its one removed line. -/
def example_deletion_backend : Option String → String → git_diff_options → DiffRun :=
  fun _ _ _ =>
    { hunks := [(git_diff_hunk.mk 3 1 2 0 "@@ -3 +2,0 @@ ", [git_diff_line.mk '-' "gone"])],
      code := 0, last_error := none }

/-- The string the arguments of `Git::path` denote: the first `cpath_length` characters at
`cpath`, or the whole C string when the length is not given. -/
def path_argument (cpath : List Char) (cpath_length : Nat) : List Char :=
  cpath.take (if cpath_length = SIZE_MAX then cpath.length else cpath_length)

/-- The string ends in `/` or in a backslash. -/
def ends_in_separator (s : List Char) : Bool :=
  match s.getLast? with
  | some c => is_separator c
  | none => false

/-- A backend in which `git_revparse_single` finds no entry for the path: code
`GIT_ENOTFOUND` (-3), no blob, and the message in the last-error slot. -/
def example_revparse_not_found : Nat → String → RevparseResult :=
  fun _ _ => { code := -3, blob := none, last_error := some "object not found" }

/-- A backend in which `git_diff_blob_to_buffer` fails with the generic code -1 and the same
message in the last-error slot. -/
def example_diff_failure : Option String → String → git_diff_options → DiffRun :=
  fun _ _ _ => { hunks := [], code := -1, last_error := some "object not found" }

/-- The paths the specification says one entry inserts: for the relative path `c1/.../cn` the
paths `W/c1`, `W/c1/c2`, ..., `W/c1/.../cn`.  For the empty relative path (which the status
walk never reports) the loop body runs once and the path is `W` itself. -/
def inserted_by (work_path rel_path p : Path) : Prop :=
  ∃ i, (1 ≤ i ∨ rel_path = []) ∧ i ≤ rel_path.length ∧ p = work_path.join (rel_path.take i)

/-- The status the callbacks of `get_status` accumulate over the entries of one walk. -/
def status_of_walk (lib : Libgit2) (work_path : Path) (entries : List (Path × Nat))
    (status : Status) : Status :=
  entries.foldl
    (fun st e => get_status_callback work_path e.1 (status_callback_status lib e.2) st) status

/-- A stub backend used in the examples: every status walk reports `a/b/c.txt` with the flag
`GIT_STATUS_WT_MODIFIED`, `new.txt` with `GIT_STATUS_WT_NEW` and `old.txt` with
`GIT_STATUS_WT_DELETED`, and succeeds. -/
def example_status_backend : Backend :=
  { status_foreach_calls := 0
    status_foreach := fun _ =>
      { entries := [(["a", "b", "c.txt"], 1 <<< 8), (["new.txt"], 1 <<< 7),
                    (["old.txt"], 1 <<< 9)],
        code := 0, last_error := none } }

/-- A repository handle used in the examples: work tree `/home/repo`, nothing cached. -/
def example_repository : Repository :=
  { work_path := ["/", "home", "repo"] }

/-- The invariant of the registry: the count of each entry is the number of outstanding
references to its root and is at least 1, a root without entry has no outstanding reference,
every outstanding reference wraps the pointer stored in the entry of its root, and the
number of outstanding references fits `size_t`. -/
def RegistryInvariant (w : World) : Prop :=
  (∀ root ptr count, w.registry.repositories root = some (ptr, count) →
    count = w.outstanding root ∧ 1 ≤ count) ∧
  (∀ root, w.registry.repositories root = none → w.outstanding root = 0) ∧
  (∀ sp ∈ w.live, ∃ count, w.registry.repositories sp.root_path = some (sp.ptr, count)) ∧
  w.live.length < 2 ^ 64

/-- The world after one successful `get_repository` on the root `/r` from program start. -/
def example_world : World :=
  { registry :=
      { repositories := table_set Registry.empty.repositories "/r" (0, 1), constructed := 1 }
    live := [{ ptr := 0, root_path := "/r" }] }

end Git

/-! # Checked properties -/

namespace Git

/-! ## Properties of the diff callbacks -/

theorem foreach_hunk_cb (hunks : List git_diff_hunk) (lines : Lines) :
    foreach_cb hunk_cb hunks lines =
      ({ added := lines.added ++ (spec_lines hunks).added
         removed := lines.removed ++ (spec_lines hunks).removed
         modified := lines.modified ++ (spec_lines hunks).modified }, 0) := by
  induction hunks generalizing lines with
  | nil => simp [foreach_cb, spec_lines]
  | cons h t ih =>
    unfold foreach_cb
    by_cases ha : spec_is_added h
    · have hr : ¬ spec_is_removed h := by
        unfold spec_is_added at ha; unfold spec_is_removed; omega
      have ha1 := ha
      unfold spec_is_added at ha1
      simp [hunk_cb, ha1, ih, spec_lines, List.filter_cons, ha, hr, spec_range]
    · by_cases hr : spec_is_removed h
      · have ha1 := ha
        have hr1 := hr
        unfold spec_is_added at ha1
        unfold spec_is_removed at hr1
        simp only [hunk_cb, if_neg ha1, if_pos hr1]
        simp [ih, spec_lines, List.filter_cons, ha, hr]
      · have ha1 := ha
        have hr1 := hr
        unfold spec_is_added at ha1
        unfold spec_is_removed at hr1
        simp only [hunk_cb, if_neg ha1, if_neg hr1]
        simp [ih, spec_lines, List.filter_cons, ha, hr, spec_range]

theorem get_lines_eq (self : Diff) (buffer : String)
    (backend : Option String → String → git_diff_options → DiffRun) :
    self.get_lines buffer backend =
      if (backend self.blob buffer self.options).code ≠ 0 then
        Except.error (Exception.runtime_error
          (Error.message (backend self.blob buffer self.options).last_error))
      else Except.ok (spec_lines (backend self.blob buffer self.options).hunk_entries) := by
  simp only [Diff.get_lines, foreach_hunk_cb, Error.toBool]
  by_cases hc : (backend self.blob buffer self.options).code = 0
  · simp [hc]
  · simp [hc]

/-- C1: `get_lines` returns the reference partition of the hunks the backend delivers, in the
order of delivery: `added` holds the pair (new_start-1, new_start+new_lines-1) of exactly the
hunks with old_lines = 0 and new_lines > 0, `removed` holds new_start-1 of exactly the hunks
with new_lines = 0 and old_lines > 0, `modified` holds the pair of every other hunk (it throws
when the backend returns a nonzero code).  In particular one hunk (old_lines = 0,
new_start = n+1, new_lines = 1) yields added = [(n, n+1)] and nothing else. -/
theorem get_lines_reference_partition (self : Diff) (buffer : String)
    (backend : Option String → String → git_diff_options → DiffRun) :
    (self.get_lines buffer backend =
      if (backend self.blob buffer self.options).code ≠ 0 then
        Except.error (Exception.runtime_error
          (Error.message (backend self.blob buffer self.options).last_error))
      else
        Except.ok
          { added :=
              ((backend self.blob buffer self.options).hunk_entries.filter
                (fun h => decide (h.old_lines = 0 ∧ h.new_lines > 0))).map
                (fun h => (h.new_start - 1, h.new_start + h.new_lines - 1))
            removed :=
              ((backend self.blob buffer self.options).hunk_entries.filter
                (fun h => decide (h.new_lines = 0 ∧ h.old_lines > 0))).map
                (fun h => h.new_start - 1)
            modified :=
              ((backend self.blob buffer self.options).hunk_entries.filter
                (fun h => decide (¬ (h.old_lines = 0 ∧ h.new_lines > 0) ∧
                  ¬ (h.new_lines = 0 ∧ h.old_lines > 0)))).map
                (fun h => (h.new_start - 1, h.new_start + h.new_lines - 1)) }) ∧
    (∀ (n old_start : Int) (header : String) (ls : List git_diff_line)
        (last_error : Option String),
      backend self.blob buffer self.options =
        { hunks := [({ old_start := old_start, old_lines := 0, new_start := n + 1,
                       new_lines := 1, header := header }, ls)],
          code := 0, last_error := last_error } →
      self.get_lines buffer backend =
        Except.ok { added := [(n, n + 1)], removed := [], modified := [] }) := by
  refine ⟨?_, ?_⟩
  · rw [get_lines_eq]
    rfl
  · intro n old_start header ls last_error hrun
    rw [get_lines_eq, hrun]
    simp [DiffRun.hunk_entries, spec_lines, spec_is_added, spec_is_removed, spec_range]

theorem append_line_ne_empty (acc : String) (c : Char) (content : String) :
    acc ++ (String.singleton c ++ content) ≠ "" := by
  intro h
  have hl := congrArg String.length h
  simp [String.length_append] at hl

theorem foreach_line_cb_nonempty (entries : List (git_diff_hunk × git_diff_line))
    (acc : String) (line_nr : Int) (hacc : acc ≠ "") :
    foreach_cb (fun (e : git_diff_hunk × git_diff_line) => line_cb e.1 e.2) entries
        (acc, line_nr) =
      ((acc ++ spec_lines_text (entries.filter (fun e => decide (touches e.1 line_nr))),
        line_nr), 0) := by
  induction entries generalizing acc with
  | nil => simp [foreach_cb, spec_lines_text]
  | cons e es ih =>
    unfold foreach_cb
    by_cases ht : touches e.1 line_nr
    · have ht1 := ht
      unfold touches spec_in_range at ht1
      have hc : line_nr = e.1.new_start - 1 ∨
          (line_nr ≥ e.1.new_start - 1 ∧ line_nr < e.1.new_start + e.1.new_lines - 1) := ht1
      simp only [line_cb, if_pos hc, if_neg hacc]
      simp only [ne_eq, not_true_eq_false, if_false]
      rw [ih _ (append_line_ne_empty _ _ _)]
      simp [List.filter_cons, ht, spec_lines_text, String.append_assoc]
    · have ht1 := ht
      unfold touches spec_in_range at ht1
      have hc : ¬ (line_nr = e.1.new_start - 1 ∨
          (line_nr ≥ e.1.new_start - 1 ∧ line_nr < e.1.new_start + e.1.new_lines - 1)) := ht1
      simp only [line_cb, if_neg hc]
      simp only [ne_eq, not_true_eq_false, if_false]
      rw [ih _ hacc]
      simp [List.filter_cons, ht]

theorem foreach_line_cb_empty (entries : List (git_diff_hunk × git_diff_line))
    (line_nr : Int) :
    foreach_cb (fun (e : git_diff_hunk × git_diff_line) => line_cb e.1 e.2) entries
        ("", line_nr) =
      ((spec_details (entries.filter (fun e => decide (touches e.1 line_nr))), line_nr), 0) := by
  induction entries with
  | nil => simp [foreach_cb, spec_details]
  | cons e es ih =>
    unfold foreach_cb
    by_cases ht : touches e.1 line_nr
    · have ht1 := ht
      unfold touches spec_in_range at ht1
      have hc : line_nr = e.1.new_start - 1 ∨
          (line_nr ≥ e.1.new_start - 1 ∧ line_nr < e.1.new_start + e.1.new_lines - 1) := ht1
      simp only [line_cb, if_pos hc]
      simp only [ne_eq, not_true_eq_false, if_false, if_true]
      rw [foreach_line_cb_nonempty _ _ _ (append_line_ne_empty _ _ _)]
      simp [List.filter_cons, ht, spec_details, spec_lines_text, String.append_assoc]
    · have ht1 := ht
      unfold touches spec_in_range at ht1
      have hc : ¬ (line_nr = e.1.new_start - 1 ∨
          (line_nr ≥ e.1.new_start - 1 ∧ line_nr < e.1.new_start + e.1.new_lines - 1)) := ht1
      simp only [line_cb, if_neg hc]
      simp only [ne_eq, not_true_eq_false, if_false]
      rw [ih]
      simp [List.filter_cons, ht]

theorem get_details_eq (self : Diff) (buffer : String) (line_nr : Int)
    (backend : Option String → String → git_diff_options → DiffRun) :
    self.get_details buffer line_nr backend =
      if (backend self.blob buffer self.options).code ≠ 0 then
        Except.error (Exception.runtime_error
          (Error.message (backend self.blob buffer self.options).last_error))
      else
        Except.ok (spec_details ((backend self.blob buffer self.options).line_entries.filter
          (fun e => decide (touches e.1 line_nr)))) := by
  simp only [Diff.get_details, foreach_line_cb_empty, Error.toBool]
  by_cases hc : (backend self.blob buffer self.options).code = 0
  · simp [hc]
  · simp [hc]

/-- C4 (as stated, refuted): for a hunk that only removes lines (new_start = 2, new_lines = 0)
the new-range [1, 1) contains no line, yet `get_details` at line 1 returns the header and the
removed line, not the empty string. -/
theorem get_details_start_line_outside_range :
    (∀ e ∈ (example_deletion_backend none "" (git_diff_options.mk 1 0 0)).line_entries,
      ¬ spec_in_range e.1 1) ∧
    (Diff.mk 0 none (git_diff_options.mk 1 0 0)).get_details "" 1 example_deletion_backend =
      Except.ok "@@ -3 +2,0 @@ -gone" := by
  refine ⟨?_, ?_⟩
  · simp [example_deletion_backend, DiffRun.line_entries, spec_in_range]
  · rw [get_details_eq]
    simp [example_deletion_backend, DiffRun.line_entries, touches, spec_in_range,
      spec_details, spec_lines_text]
    decide

/-- C4 (amended): an entry contributes to the result of `get_details` exactly when lineNumber
is the start line new_start-1 of its hunk or new_start-1 <= lineNumber < new_start+new_lines-1
(the same as the new-range test for a hunk with new_lines > 0, and the start line alone for a
hunk with new_lines = 0); the result is the empty string when no entry contributes, and when
the contributing entries are those of one hunk it is that hunk's header once followed by
origin marker + content of each of its lines in emission order. -/
theorem get_details_contributing_entries (self : Diff) (buffer : String) (line_nr : Int)
    (backend : Option String → String → git_diff_options → DiffRun) :
    (self.get_details buffer line_nr backend =
      if (backend self.blob buffer self.options).code ≠ 0 then
        Except.error (Exception.runtime_error
          (Error.message (backend self.blob buffer self.options).last_error))
      else
        Except.ok (spec_details ((backend self.blob buffer self.options).line_entries.filter
          (fun e => decide (e.1.new_start - 1 = line_nr ∨
            (e.1.new_start - 1 ≤ line_nr ∧ line_nr < e.1.new_start + e.1.new_lines - 1)))))) ∧
    (∀ h : git_diff_hunk, 0 < h.new_lines →
      ((h.new_start - 1 = line_nr ∨
        (h.new_start - 1 ≤ line_nr ∧ line_nr < h.new_start + h.new_lines - 1)) ↔
        spec_in_range h line_nr)) ∧
    (∀ h : git_diff_hunk, h.new_lines = 0 →
      ((h.new_start - 1 = line_nr ∨
        (h.new_start - 1 ≤ line_nr ∧ line_nr < h.new_start + h.new_lines - 1)) ↔
        line_nr = h.new_start - 1)) ∧
    ((backend self.blob buffer self.options).code = 0 →
      (∀ e ∈ (backend self.blob buffer self.options).line_entries, ¬ touches e.1 line_nr) →
      self.get_details buffer line_nr backend = Except.ok "") ∧
    (∀ h0 : git_diff_hunk, (backend self.blob buffer self.options).code = 0 →
      touches h0 line_nr →
      (∃ e ∈ (backend self.blob buffer self.options).line_entries, e.1 = h0) →
      (∀ e ∈ (backend self.blob buffer self.options).line_entries,
        touches e.1 line_nr → e.1 = h0) →
      self.get_details buffer line_nr backend =
        Except.ok (h0.header ++ spec_lines_text
          ((backend self.blob buffer self.options).line_entries.filter
            (fun e => decide (e.1 = h0))))) := by
  refine ⟨?_, ?_, ?_, ?_, ?_⟩
  · rw [get_details_eq]
    have hf : (fun e : git_diff_hunk × git_diff_line => decide (touches e.1 line_nr)) =
        (fun e => decide (e.1.new_start - 1 = line_nr ∨
          (e.1.new_start - 1 ≤ line_nr ∧ line_nr < e.1.new_start + e.1.new_lines - 1))) := by
      funext e
      simp only [touches, spec_in_range, decide_eq_decide]
      constructor
      · rintro (h | h)
        · exact Or.inl h.symm
        · exact Or.inr h
      · rintro (h | h)
        · exact Or.inl h.symm
        · exact Or.inr h
    rw [hf]
  · intro h hpos
    unfold spec_in_range
    omega
  · intro h hz
    omega
  · intro hc hno
    rw [get_details_eq]
    have hnil : (backend self.blob buffer self.options).line_entries.filter
        (fun e => decide (touches e.1 line_nr)) = [] := by
      rw [List.filter_eq_nil_iff]
      intro e he
      simpa using hno e he
    simp [hc, hnil, spec_details]
  · intro h0 hc ht hex hall
    rw [get_details_eq]
    have hfil : (backend self.blob buffer self.options).line_entries.filter
        (fun e => decide (touches e.1 line_nr)) =
        (backend self.blob buffer self.options).line_entries.filter
          (fun e => decide (e.1 = h0)) := by
      apply List.filter_congr
      intro e he
      simp only [decide_eq_decide]
      constructor
      · exact hall e he
      · intro h
        rw [h]
        exact ht
    rw [hfil]
    simp only [hc, ne_eq, not_true_eq_false, if_false]
    obtain ⟨e0, he0, he0h⟩ := hex
    have hmem : e0 ∈ (backend self.blob buffer self.options).line_entries.filter
        (fun e => decide (e.1 = h0)) := by
      simp [List.mem_filter, he0, he0h]
    cases hl : (backend self.blob buffer self.options).line_entries.filter
        (fun e => decide (e.1 = h0)) with
    | nil => rw [hl] at hmem; cases hmem
    | cons e1 es =>
      have h1 : e1 ∈ (backend self.blob buffer self.options).line_entries.filter
          (fun e => decide (e.1 = h0)) := by
        rw [hl]; exact List.mem_cons_self _ _
      have h1h : e1.1 = h0 := by
        simpa using (List.mem_filter.mp h1).2
      simp [spec_details, h1h]

/-! ## Properties of the status classification -/

/-- C7 (as stated, refuted): when the backend cannot resolve `HEAD:<path>` the constructor
throws `std::runtime_error` with the backend message, and a failing diff computation in
`get_lines` throws the very same exception value, so no test on the exception tells the
revision failure from the generic backend failure. -/
theorem diff_failure_not_distinguishable :
    Diff.new "new.txt" 0 example_revparse_not_found =
      Except.error (Exception.runtime_error "object not found") ∧
    (Diff.mk 0 (some "content") (git_diff_options.mk 1 0 0)).get_lines "text"
        example_diff_failure =
      Except.error (Exception.runtime_error "object not found") ∧
    ¬ ∃ is_revision_error : Exception → Bool,
      (∀ e, Diff.new "new.txt" 0 example_revparse_not_found = Except.error e →
        is_revision_error e = true) ∧
      (∀ e, (Diff.mk 0 (some "content") (git_diff_options.mk 1 0 0)).get_lines "text"
          example_diff_failure = Except.error e → is_revision_error e = false) := by
  have h1 : Diff.new "new.txt" 0 example_revparse_not_found =
      Except.error (Exception.runtime_error "object not found") := by
    simp [Diff.new, example_revparse_not_found, Error.toBool, Error.message]
  have h2 : (Diff.mk 0 (some "content") (git_diff_options.mk 1 0 0)).get_lines "text"
      example_diff_failure =
      Except.error (Exception.runtime_error "object not found") := by
    rw [get_lines_eq]
    simp [example_diff_failure, Error.message]
  refine ⟨h1, h2, ?_⟩
  rintro ⟨f, hf1, hf2⟩
  have a := hf1 _ h1
  have b := hf2 _ h2
  rw [a] at b
  cases b

/-! ## Properties of the status walk -/

theorem mem_emplace (p x : Path) (s : List Path) : p ∈ emplace x s ↔ p = x ∨ p ∈ s := by
  unfold emplace
  by_cases h : x ∈ s
  · simp only [h, if_true]
    constructor
    · exact Or.inr
    · rintro (rfl | hp)
      · exact h
      · exact hp
  · simp [h]

theorem inserted_by_nil (work_path p : Path) :
    inserted_by work_path [] p ↔ p = work_path := by
  unfold inserted_by Path.join
  constructor
  · rintro ⟨i, -, -, hp⟩
    simpa using hp
  · intro hp
    exact ⟨0, Or.inr rfl, by simp, by simpa using hp⟩

theorem inserted_by_concat (work_path l p : Path) (a : String) :
    inserted_by work_path (l ++ [a]) p ↔
      p = work_path.join (l ++ [a]) ∨ (l ≠ [] ∧ inserted_by work_path l p) := by
  unfold inserted_by Path.join
  constructor
  · rintro ⟨i, hi, hle, hp⟩
    have hi1 : 1 ≤ i := by
      rcases hi with h | h
      · exact h
      · simp at h
    simp only [List.length_append, List.length_singleton] at hle
    by_cases hlast : i = l.length + 1
    · left
      rw [hp, hlast]
      simp
    · right
      have hil : i ≤ l.length := by omega
      have hne : l ≠ [] := by
        intro e
        rw [e] at hil
        simp at hil
        omega
      refine ⟨hne, i, Or.inl hi1, hil, ?_⟩
      rw [hp, List.take_append_of_le_length hil]
  · rintro (hp | ⟨hne, i, hi, hle, hp⟩)
    · refine ⟨l.length + 1, Or.inl (by omega), by simp, ?_⟩
      rw [hp]
      simp
    · have hi1 : 1 ≤ i := by
        rcases hi with h | h
        · exact h
        · exact absurd h hne
      refine ⟨i, Or.inl hi1, by simp; omega, ?_⟩
      rw [hp, List.take_append_of_le_length hle]

theorem get_status_loop_mem (work_path : Path) (status_enum : STATUS) (rel_path : Path)
    (status : Status) (p : Path) :
    (p ∈ (get_status_loop work_path status_enum rel_path status).modified ↔
      p ∈ status.modified ∨
        (status_enum = STATUS.MODIFIED ∧ inserted_by work_path rel_path p)) ∧
    (p ∈ (get_status_loop work_path status_enum rel_path status).added ↔
      p ∈ status.added ∨ (status_enum = STATUS.NEW ∧ inserted_by work_path rel_path p)) := by
  induction rel_path using List.reverseRecOn generalizing status with
  | nil =>
    rw [get_status_loop]
    simp only [Path.parent_path, Path.empty, List.dropLast_nil, List.isEmpty_nil,
      Bool.true_eq_false, dite_false, inserted_by_nil]
    by_cases hm : status_enum = STATUS.MODIFIED
    · subst hm
      simp [mem_emplace, Path.join]
      tauto
    · by_cases hn : status_enum = STATUS.NEW
      · subst hn
        simp [mem_emplace, Path.join]
        tauto
      · simp [hm, hn]
  | append_singleton l a ih =>
    rw [get_status_loop]
    simp only [Path.parent_path, Path.empty, List.dropLast_concat, inserted_by_concat]
    by_cases hl : l = []
    · subst hl
      simp only [List.isEmpty_nil, Bool.true_eq_false, dite_false]
      by_cases hm : status_enum = STATUS.MODIFIED
      · subst hm
        simp [mem_emplace]
        tauto
      · by_cases hn : status_enum = STATUS.NEW
        · subst hn
          simp [mem_emplace]
          tauto
        · simp [hm, hn]
    · have he : l.isEmpty = false := by
        cases l with
        | nil => exact absurd rfl hl
        | cons x xs => rfl
      simp only [he, dite_true]
      rw [(ih _).1, (ih _).2]
      by_cases hm : status_enum = STATUS.MODIFIED
      · subst hm
        simp [mem_emplace, hl]
        tauto
      · by_cases hn : status_enum = STATUS.NEW
        · subst hn
          simp [mem_emplace, hl]
          tauto
        · simp [hm, hn]

theorem get_status_loop_other (work_path : Path) (status_enum : STATUS)
    (hm : status_enum ≠ STATUS.MODIFIED) (hn : status_enum ≠ STATUS.NEW) (rel_path : Path)
    (status : Status) :
    get_status_loop work_path status_enum rel_path status = status := by
  induction rel_path using List.reverseRecOn generalizing status with
  | nil =>
    rw [get_status_loop]
    simp [Path.parent_path, Path.empty, hm, hn]
  | append_singleton l a ih =>
    rw [get_status_loop]
    simp only [Path.parent_path, Path.empty, List.dropLast_concat, hm, hn, if_false]
    by_cases he : l.isEmpty = false
    · simp only [he, dite_true]
      exact ih _
    · simp [he]

theorem status_of_walk_mem (lib : Libgit2) (work_path : Path) (entries : List (Path × Nat))
    (status : Status) (p : Path) :
    (p ∈ (status_of_walk lib work_path entries status).modified ↔
      p ∈ status.modified ∨
        ∃ e ∈ entries, status_callback_status lib e.2 = STATUS.MODIFIED ∧
          inserted_by work_path e.1 p) ∧
    (p ∈ (status_of_walk lib work_path entries status).added ↔
      p ∈ status.added ∨
        ∃ e ∈ entries, status_callback_status lib e.2 = STATUS.NEW ∧
          inserted_by work_path e.1 p) := by
  induction entries generalizing status with
  | nil => simp [status_of_walk]
  | cons e es ih =>
    have hstep : status_of_walk lib work_path (e :: es) status =
        status_of_walk lib work_path es
          (get_status_callback work_path e.1 (status_callback_status lib e.2) status) := by
      simp [status_of_walk]
    rw [hstep, (ih _).1, (ih _).2]
    unfold get_status_callback
    rw [(get_status_loop_mem _ _ _ _ _).1, (get_status_loop_mem _ _ _ _ _).2]
    simp only [List.mem_cons, exists_eq_or_imp]
    tauto

theorem foreach_cb_fold {α σ : Type} (cb : α → σ → σ × Int) (hz : ∀ x s, (cb x s).2 = 0)
    (xs : List α) (s : σ) :
    foreach_cb cb xs s = (xs.foldl (fun acc x => (cb x acc).1) s, 0) := by
  induction xs generalizing s with
  | nil => simp [foreach_cb]
  | cons x xs ih =>
    unfold foreach_cb
    simp [hz, ih]

theorem get_status_invalid (lib : Libgit2) (self : Repository) (backend : Backend)
    (hinv : self.has_saved_status = false) :
    self.get_status lib backend =
      if (backend.status_foreach backend.status_foreach_calls).code ≠ 0 then
        (Except.error (Exception.runtime_error
            (Error.message (backend.status_foreach backend.status_foreach_calls).last_error)),
          self,
          { backend with status_foreach_calls := backend.status_foreach_calls + 1 })
      else
        (Except.ok (status_of_walk lib self.work_path
            (backend.status_foreach backend.status_foreach_calls).entries {}),
          { self with
            saved_status := status_of_walk lib self.work_path
              (backend.status_foreach backend.status_foreach_calls).entries {}
            has_saved_status := true },
          { backend with status_foreach_calls := backend.status_foreach_calls + 1 }) := by
  have hfold := foreach_cb_fold
    (fun (e : Path × Nat) =>
      status_callback lib e.1 e.2 (some (get_status_callback self.work_path)))
    (by intro x s; rfl)
    (backend.status_foreach backend.status_foreach_calls).entries ({} : Status)
  unfold Repository.get_status
  simp only [hinv, Bool.false_eq_true, if_false, hfold, Error.toBool]
  by_cases hc : (backend.status_foreach backend.status_foreach_calls).code = 0
  · simp [hc, status_of_walk, status_callback]
  · simp [hc]

theorem not_inserted_by_self (work_path rel_path : Path) (hne : rel_path ≠ []) :
    ¬ inserted_by work_path rel_path work_path := by
  rintro ⟨i, hi, hle, hp⟩
  have hi1 : 1 ≤ i := by
    rcases hi with h | h
    · exact h
    · exact absurd h hne
  have hlen := congrArg List.length hp
  simp only [Path.join, List.length_append, List.length_take] at hlen
  have hpos : 0 < rel_path.length := List.length_pos.mpr hne
  have : min i rel_path.length = 0 := by omega
  omega

/-- C3: when `get_status` walks the backend and the walk succeeds, for every entry with a
non-empty relative path c1/.../cn classified MODIFIED the returned modified set contains
W/c1, W/c1/c2, ..., W/c1/.../cn; the same holds for NEW entries and the added set; the
callback of such an entry does not put the work-tree root W itself into a set, an entry of any
other class leaves both sets as they are, the sets hold nothing but these paths, and W is in
neither set when every reported path is non-empty. -/
theorem get_status_ancestor_propagation (lib : Libgit2) (self : Repository)
    (backend : Backend) (hinv : self.has_saved_status = false)
    (hcode : (backend.status_foreach backend.status_foreach_calls).code = 0) :
    ∃ st : Status, (self.get_status lib backend).1 = Except.ok st ∧
      (∀ e ∈ (backend.status_foreach backend.status_foreach_calls).entries, e.1 ≠ [] →
        status_callback_status lib e.2 = STATUS.MODIFIED →
        ∀ i, 1 ≤ i → i ≤ e.1.length → self.work_path.join (e.1.take i) ∈ st.modified) ∧
      (∀ e ∈ (backend.status_foreach backend.status_foreach_calls).entries, e.1 ≠ [] →
        status_callback_status lib e.2 = STATUS.NEW →
        ∀ i, 1 ≤ i → i ≤ e.1.length → self.work_path.join (e.1.take i) ∈ st.added) ∧
      (∀ (rel_path : Path) (status_enum : STATUS) (status : Status), rel_path ≠ [] →
        (self.work_path ∈
            (get_status_callback self.work_path rel_path status_enum status).modified ↔
          self.work_path ∈ status.modified) ∧
        (self.work_path ∈
            (get_status_callback self.work_path rel_path status_enum status).added ↔
          self.work_path ∈ status.added)) ∧
      (∀ (rel_path : Path) (status_enum : STATUS) (status : Status),
        status_enum ≠ STATUS.MODIFIED → status_enum ≠ STATUS.NEW →
        get_status_callback self.work_path rel_path status_enum status = status) ∧
      (∀ p, p ∈ st.modified ↔
        ∃ e ∈ (backend.status_foreach backend.status_foreach_calls).entries,
          status_callback_status lib e.2 = STATUS.MODIFIED ∧
          inserted_by self.work_path e.1 p) ∧
      (∀ p, p ∈ st.added ↔
        ∃ e ∈ (backend.status_foreach backend.status_foreach_calls).entries,
          status_callback_status lib e.2 = STATUS.NEW ∧ inserted_by self.work_path e.1 p) ∧
      ((∀ e ∈ (backend.status_foreach backend.status_foreach_calls).entries, e.1 ≠ []) →
        self.work_path ∉ st.modified ∧ self.work_path ∉ st.added) := by
  have hmod : ∀ p, p ∈ (status_of_walk lib self.work_path
      (backend.status_foreach backend.status_foreach_calls).entries {}).modified ↔
      ∃ e ∈ (backend.status_foreach backend.status_foreach_calls).entries,
        status_callback_status lib e.2 = STATUS.MODIFIED ∧
        inserted_by self.work_path e.1 p := by
    intro p
    rw [(status_of_walk_mem _ _ _ _ _).1]
    simp
  have hadd : ∀ p, p ∈ (status_of_walk lib self.work_path
      (backend.status_foreach backend.status_foreach_calls).entries {}).added ↔
      ∃ e ∈ (backend.status_foreach backend.status_foreach_calls).entries,
        status_callback_status lib e.2 = STATUS.NEW ∧ inserted_by self.work_path e.1 p := by
    intro p
    rw [(status_of_walk_mem _ _ _ _ _).2]
    simp
  refine ⟨status_of_walk lib self.work_path
    (backend.status_foreach backend.status_foreach_calls).entries {}, ?_, ?_, ?_, ?_, ?_,
    hmod, hadd, ?_⟩
  · rw [get_status_invalid lib self backend hinv]
    simp [hcode]
  · intro e he hne hcls i hi hle
    rw [hmod]
    exact ⟨e, he, hcls, i, Or.inl hi, hle, rfl⟩
  · intro e he hne hcls i hi hle
    rw [hadd]
    exact ⟨e, he, hcls, i, Or.inl hi, hle, rfl⟩
  · intro rel_path status_enum status hne
    unfold get_status_callback
    rw [(get_status_loop_mem _ _ _ _ _).1, (get_status_loop_mem _ _ _ _ _).2]
    have hno := not_inserted_by_self self.work_path rel_path hne
    constructor
    · constructor
      · rintro (h | ⟨-, h⟩)
        · exact h
        · exact absurd h hno
      · exact Or.inl
    · constructor
      · rintro (h | ⟨-, h⟩)
        · exact h
        · exact absurd h hno
      · exact Or.inl
  · intro rel_path status_enum status hm hn
    exact get_status_loop_other _ _ hm hn _ _
  · intro hall
    constructor
    · rw [hmod]
      rintro ⟨e, he, -, hins⟩
      exact not_inserted_by_self _ _ (hall e he) hins
    · rw [hadd]
      rintro ⟨e, he, -, hins⟩
      exact not_inserted_by_self _ _ (hall e he) hins

/-- The propagation at a concrete walk: `a/b/c.txt` modified under `/home/repo` puts
`/home/repo/a`, `/home/repo/a/b` and `/home/repo/a/b/c.txt` into the modified set, and not
`/home/repo` itself. -/
theorem get_status_ancestor_propagation_witness :
    example_repository.has_saved_status = false ∧
    (example_status_backend.status_foreach
      example_status_backend.status_foreach_calls).code = 0 ∧
    ∃ st : Status,
      (example_repository.get_status libgit2_headers example_status_backend).1 =
        Except.ok st ∧
      ["/", "home", "repo", "a"] ∈ st.modified ∧
      ["/", "home", "repo", "a", "b"] ∈ st.modified ∧
      ["/", "home", "repo", "a", "b", "c.txt"] ∈ st.modified ∧
      ["/", "home", "repo"] ∉ st.modified := by
  refine ⟨rfl, rfl, ?_⟩
  obtain ⟨st, hst, hmod, -, -, -, -, -, hroot⟩ :=
    get_status_ancestor_propagation libgit2_headers example_repository
      example_status_backend rfl rfl
  have hentry : ((["a", "b", "c.txt"], 1 <<< 8) : Path × Nat) ∈
      (example_status_backend.status_foreach
        example_status_backend.status_foreach_calls).entries := by
    simp [example_status_backend]
  have hcls : status_callback_status libgit2_headers (1 <<< 8) = STATUS.MODIFIED := by decide
  refine ⟨st, hst, ?_, ?_, ?_, ?_⟩
  · exact hmod _ hentry (by simp) hcls 1 (by decide) (by decide)
  · exact hmod _ hentry (by simp) hcls 2 (by decide) (by decide)
  · exact hmod _ hentry (by simp) hcls 3 (by decide) (by decide)
  · exact (hroot (by simp [example_status_backend])).1

/-- C7 (amended): when the backend's resolution of `HEAD:<path>` returns a nonzero code, the
Diff constructor and `get_diff` fail with `std::runtime_error` carrying the backend's
last-error message, which is the same failure, built the same way, that `get_lines`,
`get_details` and `get_status` raise on a nonzero backend code; when the resolution returns
zero the constructor succeeds with the resolved blob and context_lines set to 0. -/
theorem diff_new_outcome (path : String) (repository : Nat)
    (git_revparse_single : Nat → String → RevparseResult) :
    ((git_revparse_single repository ("HEAD:" ++ path)).code ≠ 0 →
      Diff.new path repository git_revparse_single =
        Except.error (Exception.runtime_error
          (Error.message (git_revparse_single repository ("HEAD:" ++ path)).last_error)) ∧
      Repository.get_diff repository path git_revparse_single =
        Except.error (Exception.runtime_error
          (Error.message (git_revparse_single repository ("HEAD:" ++ path)).last_error))) ∧
    ((git_revparse_single repository ("HEAD:" ++ path)).code = 0 →
      Diff.new path repository git_revparse_single =
        Except.ok
          { repository := repository
            blob := (git_revparse_single repository ("HEAD:" ++ path)).blob
            options := { version := GIT_DIFF_OPTIONS_VERSION, context_lines := 0,
                         interhunk_lines := 0 } } ∧
      Repository.get_diff repository path git_revparse_single =
        Diff.new path repository git_revparse_single) ∧
    (∀ (self : Diff) (buffer : String)
        (backend : Option String → String → git_diff_options → DiffRun),
      (backend self.blob buffer self.options).code ≠ 0 →
      self.get_lines buffer backend =
        Except.error (Exception.runtime_error
          (Error.message (backend self.blob buffer self.options).last_error))) ∧
    (∀ (self : Diff) (buffer : String) (line_nr : Int)
        (backend : Option String → String → git_diff_options → DiffRun),
      (backend self.blob buffer self.options).code ≠ 0 →
      self.get_details buffer line_nr backend =
        Except.error (Exception.runtime_error
          (Error.message (backend self.blob buffer self.options).last_error))) ∧
    (∀ (lib : Libgit2) (self : Repository) (backend : Backend),
      self.has_saved_status = false →
      (backend.status_foreach backend.status_foreach_calls).code ≠ 0 →
      (self.get_status lib backend).1 =
        Except.error (Exception.runtime_error
          (Error.message
            (backend.status_foreach backend.status_foreach_calls).last_error))) := by
  refine ⟨?_, ?_, ?_, ?_, ?_⟩
  · intro hc
    simp [Repository.get_diff, Diff.new, Error.toBool, hc]
  · intro hc
    simp [Repository.get_diff, Diff.new, Error.toBool, hc, git_diff_init_options]
  · intro self buffer backend hc
    rw [get_lines_eq, if_pos hc]
  · intro self buffer line_nr backend hc
    rw [get_details_eq, if_pos hc]
  · intro lib self backend hinv hc
    rw [get_status_invalid lib self backend hinv, if_pos hc]

/-! ## Properties of `Git::path` -/

/-- C8 (as stated, refuted): for the backend string `a//` the result of `Git::path` is `a/`,
which still ends in a separator. -/
theorem path_keeps_second_separator :
    path ['a', '/', '/'] SIZE_MAX = ['a', '/'] ∧
    ends_in_separator (path ['a', '/', '/'] SIZE_MAX) = true := by
  decide

theorem take_last_char (cpath : List Char) (n : Nat) (hpos : 0 < n) (hle : n ≤ cpath.length) :
    cpath.take n = cpath.take (n - 1) ++ [cpath.getD (n - 1) (Char.ofNat 0)] := by
  obtain ⟨k, rfl⟩ : ∃ k, n = k + 1 := ⟨n - 1, by omega⟩
  have hk : k < cpath.length := by omega
  rw [List.take_succ]
  simp [List.getD_eq_getElem?_getD, List.getElem?_eq_getElem hk]

/-- C8 (amended): `Git::path(s)` is `s` with at most one trailing separator removed: when `s`
ends in `/` or a backslash the result is `s` without its last character, so `s` is the result
followed by that one separator; a string that does not end in a separator (the empty string
included) is returned unchanged; and the result ends in a separator exactly when `s` ends in
two of them. -/
theorem path_strips_one_separator (cpath : List Char) (cpath_length : Nat)
    (hlen : cpath_length = SIZE_MAX ∨ cpath_length ≤ cpath.length) :
    (path cpath cpath_length =
      if ends_in_separator (path_argument cpath cpath_length) = true then
        (path_argument cpath cpath_length).dropLast
      else path_argument cpath cpath_length) ∧
    (ends_in_separator (path_argument cpath cpath_length) = false →
      path cpath cpath_length = path_argument cpath cpath_length) ∧
    (ends_in_separator (path_argument cpath cpath_length) = true →
      ∃ c, is_separator c = true ∧
        path_argument cpath cpath_length = path cpath cpath_length ++ [c]) ∧
    (ends_in_separator (path cpath cpath_length) = true ↔
      (ends_in_separator (path_argument cpath cpath_length) = true ∧
        ends_in_separator (path_argument cpath cpath_length).dropLast = true)) := by
  have hmain : path cpath cpath_length =
      if ends_in_separator (path_argument cpath cpath_length) = true then
        (path_argument cpath cpath_length).dropLast
      else path_argument cpath cpath_length := by
    unfold path path_argument
    generalize hn : (if cpath_length = SIZE_MAX then cpath.length else cpath_length) = n
    have hle : n ≤ cpath.length := by
      rw [← hn]
      split
      · exact le_refl _
      · rcases hlen with h | h
        · contradiction
        · exact h
    simp only []
    by_cases hpos : 0 < n
    · have ht := take_last_char cpath n hpos hle
      have hends : ends_in_separator (cpath.take n) =
          is_separator (cpath.getD (n - 1) (Char.ofNat 0)) := by
        rw [ht]
        simp [ends_in_separator]
      have hdrop : (cpath.take n).dropLast = cpath.take (n - 1) := by
        rw [ht]
        simp
      rw [hends, hdrop]
      by_cases hsep : is_separator (cpath.getD (n - 1) (Char.ofNat 0)) = true
      · have hsep1 := hsep
        simp only [is_separator, Bool.or_eq_true, decide_eq_true_eq] at hsep1
        rw [if_pos ⟨hpos, hsep1⟩, if_pos hsep]
      · have hsep1 := hsep
        simp only [is_separator, Bool.or_eq_true, decide_eq_true_eq] at hsep1
        rw [if_neg (fun h => hsep1 h.2), if_neg hsep]
    · have hz : n = 0 := by omega
      subst hz
      simp [ends_in_separator]
  refine ⟨hmain, ?_, ?_, ?_⟩
  · intro h
    rw [hmain, h]
    simp
  · intro h
    rw [hmain, if_pos h]
    unfold ends_in_separator at h
    cases hl : (path_argument cpath cpath_length).getLast? with
    | none => rw [hl] at h; cases h
    | some c =>
      rw [hl] at h
      refine ⟨c, h, ?_⟩
      exact (List.dropLast_append_getLast? c (by rw [hl]; rfl)).symm
  · rw [hmain]
    by_cases h : ends_in_separator (path_argument cpath cpath_length) = true
    · rw [if_pos h]
      simp [h]
    · rw [if_neg h]
      simp [h]

/-- The normalisation at concrete strings: the work-tree path libgit2 returns with its one
trailing slash loses it. -/
theorem path_strips_one_separator_witness :
    ((3 : Nat) = SIZE_MAX ∨ 3 ≤ ['/', 'r', '/'].length) ∧
    path ['/', 'r', '/'] 3 = ['/', 'r'] ∧
    ends_in_separator (path ['/', 'r', '/'] 3) = false := by
  have h := path_strips_one_separator ['/', 'r', '/'] 3 (Or.inr (by decide))
  refine ⟨Or.inr (by decide), ?_, ?_⟩
  · rw [h.1]
    decide
  · cases hb : ends_in_separator (path ['/', 'r', '/'] 3) with
    | false => rfl
    | true =>
      have h2 := (h.2.2.2.mp hb).2
      revert h2
      decide

/-! ## Properties of the registry -/

theorem outstanding_le (w : World) (root : String) : w.outstanding root ≤ w.live.length := by
  unfold World.outstanding
  exact List.length_filter_le _ _

theorem outstanding_cons (reg reg1 : Registry) (live : List SharedPtr) (sp : SharedPtr)
    (root : String) :
    World.outstanding { registry := reg1, live := sp :: live } root =
      World.outstanding { registry := reg, live := live } root +
        (if sp.root_path = root then 1 else 0) := by
  unfold World.outstanding
  by_cases h : sp.root_path = root
  · simp [List.filter_cons, h]
  · simp [List.filter_cons, h]

theorem outstanding_erase (reg reg1 : Registry) (live : List SharedPtr) (sp : SharedPtr)
    (hmem : sp ∈ live) (root : String) :
    World.outstanding { registry := reg1, live := live.erase sp } root +
        (if sp.root_path = root then 1 else 0) =
      World.outstanding { registry := reg, live := live } root := by
  have hperm : live.Perm (sp :: live.erase sp) := List.perm_cons_erase hmem
  have hlen := (hperm.filter (fun x : SharedPtr => decide (x.root_path = root))).length_eq
  unfold World.outstanding
  simp only []
  rw [hlen]
  by_cases h : sp.root_path = root
  · simp [List.filter_cons, h]
  · simp [List.filter_cons, h]

theorem registry_invariant_init : RegistryInvariant World.init := by
  refine ⟨?_, ?_, ?_, ?_⟩
  · intro root ptr count h
    simp [World.init, Registry.empty] at h
  · intro root _
    simp [World.init, World.outstanding]
  · intro sp hsp
    simp [World.init] at hsp
  · simp [World.init]

theorem get_repository_ok_inv (reg reg1 : Registry) (root : Except Exception String)
    (Repository_new : String → Except Exception Unit) (sp : SharedPtr)
    (h : get_repository reg root Repository_new = (Except.ok sp, reg1)) :
    ∃ r, root = Except.ok r ∧ sp.root_path = r ∧
      ((∃ c, reg.repositories r = some (sp.ptr, c) ∧
          reg1.repositories = table_set reg.repositories r (sp.ptr, (c + 1) % 2 ^ 64) ∧
          reg1.constructed = reg.constructed) ∨
        (reg.repositories r = none ∧ sp.ptr = reg.constructed ∧
          reg1.repositories = table_set reg.repositories r (reg.constructed, 1) ∧
          reg1.constructed = reg.constructed + 1)) := by
  cases root with
  | error e => simp [get_repository] at h
  | ok r =>
    refine ⟨r, rfl, ?_⟩
    cases hl : reg.repositories r with
    | none =>
      cases hn : Repository_new r with
      | error e => simp [get_repository, hl, hn] at h
      | ok u =>
        simp only [get_repository, hl, hn, Prod.mk.injEq, Except.ok.injEq] at h
        obtain ⟨h1, h2⟩ := h
        subst h1
        subst h2
        exact ⟨rfl, Or.inr ⟨rfl, rfl, rfl, rfl⟩⟩
    | some pc =>
      obtain ⟨p, c⟩ := pc
      simp only [get_repository, hl, Prod.mk.injEq, Except.ok.injEq] at h
      obtain ⟨h1, h2⟩ := h
      subst h1
      subst h2
      exact ⟨rfl, Or.inl ⟨c, rfl, rfl, rfl⟩⟩

theorem get_repository_error_inv (reg reg1 : Registry) (root : Except Exception String)
    (Repository_new : String → Except Exception Unit) (e : Exception)
    (h : get_repository reg root Repository_new = (Except.error e, reg1)) : reg1 = reg := by
  cases root with
  | error e1 =>
    simp only [get_repository, Prod.mk.injEq] at h
    exact h.2.symm
  | ok r =>
    cases hl : reg.repositories r with
    | none =>
      cases hn : Repository_new r with
      | error e1 =>
        simp only [get_repository, hl, hn, Prod.mk.injEq] at h
        exact h.2.symm
      | ok u => simp [get_repository, hl, hn] at h
    | some pc =>
      obtain ⟨p, c⟩ := pc
      simp [get_repository, hl] at h

theorem deleter_some_inv (sp : SharedPtr) (reg reg1 : Registry)
    (h : sp.deleter reg = some reg1) :
    ∃ p c, reg.repositories sp.root_path = some (p, c) ∧
      reg1.constructed = reg.constructed ∧
      reg1.repositories =
        if (c + SIZE_MAX) % 2 ^ 64 = 0 then table_erase reg.repositories sp.root_path
        else table_set reg.repositories sp.root_path (p, (c + SIZE_MAX) % 2 ^ 64) := by
  cases hl : reg.repositories sp.root_path with
  | none => simp [SharedPtr.deleter, hl] at h
  | some pc =>
    obtain ⟨p, c⟩ := pc
    refine ⟨p, c, rfl, ?_⟩
    simp only [SharedPtr.deleter, hl] at h
    by_cases hz : (c + SIZE_MAX) % 2 ^ 64 = 0
    · rw [if_pos hz] at h
      injection h with h
      subst h
      exact ⟨rfl, by rw [if_pos hz]⟩
    · rw [if_neg hz] at h
      injection h with h
      subst h
      exact ⟨rfl, by rw [if_neg hz]⟩

theorem size_t_decrement (c : Nat) (h1 : 1 ≤ c) (h2 : c < 2 ^ 64) :
    (c + SIZE_MAX) % 2 ^ 64 = c - 1 := by
  unfold SIZE_MAX
  have h : c + (2 ^ 64 - 1) = (c - 1) + 2 ^ 64 := by omega
  rw [h, Nat.add_mod_right]
  exact Nat.mod_eq_of_lt (by omega)

theorem registry_invariant_step (w w1 : World) (hinv : RegistryInvariant w)
    (hstep : Step w w1) : RegistryInvariant w1 := by
  obtain ⟨hcount, hnone, hlive, hbound⟩ := hinv
  cases hstep with
  | acquire root Repository_new sp reg hroom hget =>
    obtain ⟨r, -, hsr, hcase⟩ := get_repository_ok_inv _ _ _ _ _ hget
    have hout : ∀ root0, World.outstanding { registry := reg, live := sp :: w.live } root0 =
        w.outstanding root0 + (if r = root0 then 1 else 0) := by
      intro root0
      rw [outstanding_cons w.registry reg w.live sp root0, hsr]
    rcases hcase with ⟨c, hl, htab, -⟩ | ⟨hl, hptr, htab, -⟩
    · obtain ⟨hc, hc1⟩ := hcount r sp.ptr c hl
      have hcle : c ≤ w.live.length := hc ▸ outstanding_le w r
      have hmod : (c + 1) % 2 ^ 64 = c + 1 := Nat.mod_eq_of_lt (by omega)
      refine ⟨?_, ?_, ?_, ?_⟩
      · intro root0 ptr count h
        simp only [htab, table_set] at h
        rw [hout]
        by_cases hr : root0 = r
        · subst hr
          simp only [if_true, Option.some.injEq, Prod.mk.injEq] at h
          simp only [if_true]
          omega
        · rw [if_neg hr] at h
          have := hcount root0 ptr count h
          rw [if_neg (fun e => hr e.symm)]
          omega
      · intro root0 h
        simp only [htab, table_set] at h
        rw [hout]
        by_cases hr : root0 = r
        · subst hr
          simp at h
        · rw [if_neg hr] at h
          rw [if_neg (fun e => hr e.symm), hnone root0 h]
      · intro sp0 hsp0
        simp only [htab, table_set]
        rcases List.mem_cons.mp hsp0 with rfl | hmem
        · exact ⟨(c + 1) % 2 ^ 64, by simp [hsr]⟩
        · obtain ⟨c0, hc0⟩ := hlive sp0 hmem
          by_cases hr : sp0.root_path = r
          · rw [hr, hl] at hc0
            simp only [Option.some.injEq, Prod.mk.injEq] at hc0
            exact ⟨(c + 1) % 2 ^ 64, by simp [hr, hc0.1]⟩
          · exact ⟨c0, by simp [hr, hc0]⟩
      · simpa using hroom
    · have hzero := hnone r hl
      refine ⟨?_, ?_, ?_, ?_⟩
      · intro root0 ptr count h
        simp only [htab, table_set] at h
        rw [hout]
        by_cases hr : root0 = r
        · subst hr
          simp only [if_true, Option.some.injEq, Prod.mk.injEq] at h
          simp only [if_true]
          omega
        · rw [if_neg hr] at h
          have := hcount root0 ptr count h
          rw [if_neg (fun e => hr e.symm)]
          omega
      · intro root0 h
        simp only [htab, table_set] at h
        rw [hout]
        by_cases hr : root0 = r
        · subst hr
          simp at h
        · rw [if_neg hr] at h
          rw [if_neg (fun e => hr e.symm), hnone root0 h]
      · intro sp0 hsp0
        simp only [htab, table_set]
        rcases List.mem_cons.mp hsp0 with rfl | hmem
        · exact ⟨1, by simp [hsr, hptr]⟩
        · obtain ⟨c0, hc0⟩ := hlive sp0 hmem
          by_cases hr : sp0.root_path = r
          · rw [hr, hl] at hc0
            cases hc0
          · exact ⟨c0, by simp [hr, hc0]⟩
      · simpa using hroom
  | acquire_throws root Repository_new e reg hget =>
    have hreg := get_repository_error_inv _ _ _ _ _ hget
    subst hreg
    exact ⟨hcount, hnone, hlive, hbound⟩
  | release sp reg hmem hdel =>
    obtain ⟨p, c, hl, -, htab⟩ := deleter_some_inv sp w.registry reg hdel
    obtain ⟨hc, hc1⟩ := hcount sp.root_path p c hl
    have hcle : c ≤ w.live.length := hc ▸ outstanding_le w sp.root_path
    have hdec : (c + SIZE_MAX) % 2 ^ 64 = c - 1 := size_t_decrement c hc1 (by omega)
    rw [hdec] at htab
    have hout : ∀ root0, World.outstanding { registry := reg, live := w.live.erase sp } root0 +
        (if sp.root_path = root0 then 1 else 0) = w.outstanding root0 := by
      intro root0
      exact outstanding_erase w.registry reg w.live sp hmem root0
    have hptr : ∀ sp0 ∈ w.live, sp0.root_path = sp.root_path → sp0.ptr = p := by
      intro sp0 h0 hr
      obtain ⟨c0, hc0⟩ := hlive sp0 h0
      rw [hr, hl] at hc0
      simp only [Option.some.injEq, Prod.mk.injEq] at hc0
      exact hc0.1.symm
    refine ⟨?_, ?_, ?_, ?_⟩
    · intro root0 ptr count h
      have ho := hout root0
      by_cases hr : root0 = sp.root_path
      · subst hr
        simp only [if_true] at ho
        by_cases hz : c - 1 = 0
        · simp [htab, hz, table_erase] at h
        · simp only [htab, hz, if_false, table_set, if_true, Option.some.injEq,
            Prod.mk.injEq] at h
          omega
      · have hr1 : ¬ sp.root_path = root0 := fun e => hr e.symm
        rw [if_neg hr1] at ho
        have h0 : w.registry.repositories root0 = some (ptr, count) := by
          by_cases hz : c - 1 = 0
          · simpa [htab, hz, table_erase, hr] using h
          · simpa [htab, hz, table_set, hr] using h
        have := hcount root0 ptr count h0
        omega
    · intro root0 h
      have ho := hout root0
      by_cases hr : root0 = sp.root_path
      · subst hr
        simp only [if_true] at ho
        by_cases hz : c - 1 = 0
        · omega
        · simp [htab, hz, table_set] at h
      · have hr1 : ¬ sp.root_path = root0 := fun e => hr e.symm
        rw [if_neg hr1] at ho
        have h0 : w.registry.repositories root0 = none := by
          by_cases hz : c - 1 = 0
          · simpa [htab, hz, table_erase, hr] using h
          · simpa [htab, hz, table_set, hr] using h
        have := hnone root0 h0
        omega
    · intro sp0 hsp0
      have hmem0 : sp0 ∈ w.live := List.mem_of_mem_erase hsp0
      obtain ⟨c0, hc0⟩ := hlive sp0 hmem0
      by_cases hr : sp0.root_path = sp.root_path
      · have ho := hout sp.root_path
        simp only [if_true] at ho
        have hpos : 1 ≤ World.outstanding { registry := reg, live := w.live.erase sp }
            sp.root_path := by
          unfold World.outstanding
          apply List.length_pos.mpr
          intro hnil
          have : sp0 ∈ (w.live.erase sp).filter
              (fun x : SharedPtr => decide (x.root_path = sp.root_path)) := by
            simp [List.mem_filter, hsp0, hr]
          rw [hnil] at this
          cases this
        have hz : ¬ c - 1 = 0 := by omega
        refine ⟨c - 1, ?_⟩
        simp [htab, hz, table_set, hr, hptr sp0 hmem0 hr]
      · by_cases hz : c - 1 = 0
        · exact ⟨c0, by simp [htab, hz, table_erase, hr, hc0]⟩
        · exact ⟨c0, by simp [htab, hz, table_set, hr, hc0]⟩
    · have : (w.live.erase sp).length ≤ w.live.length := by
        rw [List.length_erase_of_mem hmem]
        omega
      simp only
      omega

theorem reachable_invariant (w : World) (hr : Reachable w) : RegistryInvariant w := by
  induction hr with
  | init => exact registry_invariant_init
  | step w0 w1 _ hstep ih => exact registry_invariant_step w0 w1 ih hstep

/-- C5: in every world reachable from the empty table by `get_repository` calls and deleter
runs, the count of each entry equals the number of outstanding references to its root and is
at least 1, and a root without entry has none; `get_repository` on a present root increments
the count and returns the stored pointer without constructing a `Repository`, on an absent
root it inserts the new object with count 1; the deleter of an outstanding reference always
finds its entry, decrements the count, and erases the entry exactly when the count becomes
0. -/
theorem registry_reference_counts (w : World) (hr : Reachable w) :
    (∀ root ptr count, w.registry.repositories root = some (ptr, count) →
      count = w.outstanding root ∧ 1 ≤ count) ∧
    (∀ root, w.registry.repositories root = none → w.outstanding root = 0) ∧
    (∀ (root : String) (ptr count : Nat) (Repository_new : String → Except Exception Unit),
      w.registry.repositories root = some (ptr, count) →
      w.live.length + 1 < 2 ^ 64 →
      get_repository w.registry (Except.ok root) Repository_new =
        (Except.ok { ptr := ptr, root_path := root },
          { repositories := table_set w.registry.repositories root (ptr, count + 1)
            constructed := w.registry.constructed })) ∧
    (∀ (root : String) (Repository_new : String → Except Exception Unit),
      w.registry.repositories root = none →
      Repository_new root = Except.ok () →
      get_repository w.registry (Except.ok root) Repository_new =
        (Except.ok { ptr := w.registry.constructed, root_path := root },
          { repositories :=
              table_set w.registry.repositories root (w.registry.constructed, 1)
            constructed := w.registry.constructed + 1 })) ∧
    (∀ sp ∈ w.live, ∃ count,
      w.registry.repositories sp.root_path = some (sp.ptr, count) ∧
      sp.deleter w.registry =
        some { repositories :=
                 if count = 1 then table_erase w.registry.repositories sp.root_path
                 else table_set w.registry.repositories sp.root_path (sp.ptr, count - 1)
               constructed := w.registry.constructed }) := by
  obtain ⟨hcount, hnone, hlive, hbound⟩ := reachable_invariant w hr
  refine ⟨hcount, hnone, ?_, ?_, ?_⟩
  · intro root ptr count Repository_new hl hroom
    obtain ⟨hc, -⟩ := hcount root ptr count hl
    have hcle : count ≤ w.live.length := hc ▸ outstanding_le w root
    have hmod : (count + 1) % 2 ^ 64 = count + 1 := Nat.mod_eq_of_lt (by omega)
    simp only [get_repository, hl, hmod]
  · intro root Repository_new hl hn
    simp only [get_repository, hl, hn]
  · intro sp hsp
    obtain ⟨count, hl⟩ := hlive sp hsp
    obtain ⟨hc, hc1⟩ := hcount sp.root_path sp.ptr count hl
    have hcle : count ≤ w.live.length := hc ▸ outstanding_le w sp.root_path
    have hdec : (count + SIZE_MAX) % 2 ^ 64 = count - 1 :=
      size_t_decrement count hc1 (by omega)
    refine ⟨count, hl, ?_⟩
    simp only [SharedPtr.deleter, hl, hdec]
    by_cases hz : count = 1
    · have hz1 : count - 1 = 0 := by omega
      rw [if_pos hz1, if_pos hz]
    · have hz1 : ¬ count - 1 = 0 := by omega
      rw [if_neg hz1, if_neg hz]

/-- The registry at a concrete reachable world: after one `get_repository` on `/r` the entry of
`/r` has count 1, which is the number of outstanding references, and the deleter of that
reference finds the entry and erases it. -/
theorem registry_reference_counts_witness :
    Reachable example_world ∧
    example_world.registry.repositories "/r" = some (0, 1) ∧
    example_world.outstanding "/r" = 1 ∧
    (∃ reg, SharedPtr.deleter { ptr := 0, root_path := "/r" } example_world.registry =
        some reg ∧ reg.repositories "/r" = none) := by
  have hreach : Reachable example_world :=
    Reachable.step World.init example_world Reachable.init
      (Step.acquire World.init (Except.ok "/r") (fun _ => Except.ok ())
        { ptr := 0, root_path := "/r" }
        { repositories := table_set Registry.empty.repositories "/r" (0, 1)
          constructed := 1 }
        (by decide) (by simp [get_repository, World.init, Registry.empty]))
  have h := registry_reference_counts example_world hreach
  have hentry : example_world.registry.repositories "/r" = some (0, 1) := by
    simp [example_world, table_set]
  refine ⟨hreach, hentry, ((h.1 "/r" 0 1 hentry).1).symm, ?_⟩
  obtain ⟨count, hl, hdel⟩ := h.2.2.2.2 { ptr := 0, root_path := "/r" }
    (by simp [example_world])
  have hcount : count = 1 := by
    rw [hentry] at hl
    simp only [Option.some.injEq, Prod.mk.injEq] at hl
    exact hl.2.symm
  subst hcount
  exact ⟨_, hdel, by simp [table_erase]⟩

end Git
